import Mathlib

/-!
Verification of the versioned (MVCC) concurrent linked list against its
specification.  The definitions below are a shallow embedding of the C
sources (the `ll_` engine): the chain of versioned nodes becomes a
`List Node`, the atomic commit counter becomes an explicit `Nat` field,
element handles (identity-compared `void *`) become `Nat`, and each list
entry point becomes a pure state-passing function.  Single-threaded runs
are modelled exactly; CAS loops always succeed on first try in the
absence of interference, so each C loop collapses to its sequential
effect.
-/

namespace ConcurrentList

/-- Versioned wrapper node: user element handle plus the MVCC version
fields (`insert_txn_id` immutable, `removed_txn_id` 0 while live). -/
structure Node where
  elm : Nat
  insert_txn_id : Nat
  removed_txn_id : Nat
  deriving DecidableEq, Repr

/-- The list state: the chain reachable from `head` plus the commit
counter (`commit_id` in the source, initialized to 1). -/
structure LState where
  chain : List Node
  commitId : Nat
  deriving DecidableEq, Repr

/-- `visible`: a node is visible at snapshot `s` iff
`insert_txn_id <= s && (removed_txn_id == 0 || removed_txn_id > s)`. -/
def visible (w : Node) (s : Nat) : Bool :=
  decide (w.insert_txn_id ≤ s) && (w.removed_txn_id == 0 || decide (s < w.removed_txn_id))

/-- `ll_init_`: empty head, commit counter starts at 1. -/
def ll_init_ : LState := ⟨[], 1⟩

/-- `ll_insert_head_`: fetch-and-increment the counter, then (if the
allocation succeeds) link a fresh live node at the head.  On allocation
failure the counter has already been consumed and nothing else happens. -/
def ll_insert_head_ (allocOk : Bool) (s : LState) (e : Nat) : LState :=
  if allocOk then ⟨⟨e, s.commitId, 0⟩ :: s.chain, s.commitId + 1⟩
  else ⟨s.chain, s.commitId + 1⟩

/-- `ll_insert_tail_`: fetch-and-increment, then link a fresh live node
after the last chain node (tombstones are traversed through). -/
def ll_insert_tail_ (allocOk : Bool) (s : LState) (e : Nat) : LState :=
  if allocOk then ⟨s.chain ++ [⟨e, s.commitId, 0⟩], s.commitId + 1⟩
  else ⟨s.chain, s.commitId + 1⟩

/-- The walk of `ll_insert_after_`: find the first node whose element is
identity-equal to `anchor` and which is visible at `sv`; splice `w`
right after it.  `none` when the walk falls off the chain. -/
def insertAfterChain (sv : Nat) (anchor : Nat) (w : Node) : List Node → Option (List Node)
  | [] => none
  | c :: rest =>
      if c.elm == anchor && visible c sv then some (c :: w :: rest)
      else (insertAfterChain sv anchor w rest).map (c :: ·)

/-- `ll_insert_after_`: C = fetch-and-increment, S = C; walk for the
anchor; if absent the fresh node is freed and the list is untouched. -/
def ll_insert_after_ (allocOk : Bool) (s : LState) (anchor e : Nat) : LState :=
  if allocOk then
    match insertAfterChain s.commitId anchor ⟨e, s.commitId, 0⟩ s.chain with
    | some ch => ⟨ch, s.commitId + 1⟩
    | none => ⟨s.chain, s.commitId + 1⟩
  else ⟨s.chain, s.commitId + 1⟩

/-- The walk of `ll_remove_head_`: unlink the first node visible at `sv`
and return its element; `(none, unchanged)` when no node is visible. -/
def removeFirstVisible (sv : Nat) : List Node → Option Nat × List Node
  | [] => (none, [])
  | c :: rest =>
      if visible c sv then (some c.elm, rest)
      else
        let r := removeFirstVisible sv rest
        (r.1, c :: r.2)

/-- `ll_remove_head_`: snapshot S is a plain load of the counter (no
increment); the first visible node is unlinked and returned. -/
def ll_remove_head_ (s : LState) : Option Nat × LState :=
  let r := removeFirstVisible s.commitId s.chain
  (r.1, ⟨r.2, s.commitId⟩)

/-- The walk of `ll_remove_`: store `c` into the `removed_txn_id` of the
first node whose element matches `e` (unconditionally, as the source
does); `none` when no node matches. -/
def removeStore (c : Nat) (e : Nat) : List Node → Option (List Node)
  | [] => none
  | w :: rest =>
      if w.elm == e then some ({ w with removed_txn_id := c } :: rest)
      else (removeStore c e rest).map (w :: ·)

/-- `ll_remove_`: C = fetch-and-increment; tombstone the first
identity-match and return 0, or return -1 when the walk finds none. -/
def ll_remove_ (s : LState) (e : Nat) : Int × LState :=
  match removeStore s.commitId e s.chain with
  | some ch => (0, ⟨ch, s.commitId + 1⟩)
  | none => (-1, ⟨s.chain, s.commitId + 1⟩)

/-- The walk of `ll_contains_`: true iff some node matches `e` and is
visible at `sv`. -/
def containsChain (sv : Nat) (e : Nat) : List Node → Bool
  | [] => false
  | w :: rest => (w.elm == e && visible w sv) || containsChain sv e rest

/-- `ll_contains_`: snapshot = current counter. -/
def ll_contains_ (s : LState) (e : Nat) : Bool :=
  containsChain s.commitId e s.chain

/-- `ll_is_empty_`: a plain null test of the head pointer (physical,
not logical, emptiness). -/
def ll_is_empty_ (s : LState) : Bool :=
  s.chain.isEmpty

/-- The counting walk of `ll_size_`. -/
def sizeChain (sv : Nat) : List Node → Nat
  | [] => 0
  | w :: rest => (if visible w sv then 1 else 0) + sizeChain sv rest

/-- `ll_size_`: count the nodes visible at the current counter. -/
def ll_size_ (s : LState) : Nat :=
  sizeChain s.commitId s.chain

/-- Snapshot iterator state: pinned snapshot plus the chain suffix
starting at the current node. -/
structure Iter where
  snapshot : Nat
  cur : List Node
  deriving DecidableEq, Repr

/-- Skip forward to the first node visible at `sv` (the skipping loops
of `ll_iter_begin` and `ll_iter_next`). -/
def skipInvisible (sv : Nat) : List Node → List Node
  | [] => []
  | c :: rest => if visible c sv then c :: rest else skipInvisible sv rest

/-- `ll_iter_begin`: snapshot the counter and position on the first
visible node. -/
def ll_iter_begin (s : LState) : Iter :=
  ⟨s.commitId, skipInvisible s.commitId s.chain⟩

/-- `ll_iter_has`. -/
def ll_iter_has (it : Iter) : Bool :=
  !it.cur.isEmpty

/-- `ll_iter_get`. -/
def ll_iter_get (it : Iter) : Option Nat :=
  it.cur.head?.map Node.elm

/-- `ll_iter_next`: step past the current node, then skip invisible
nodes. -/
def ll_iter_next (it : Iter) : Iter :=
  match it.cur with
  | [] => it
  | _ :: rest => ⟨it.snapshot, skipInvisible it.snapshot rest⟩

/-- Drain a begun iterator: the elements produced by the
`has / get / next` loop. -/
def iterDrain (it : Iter) : List Nat :=
  match h : it.cur with
  | [] => []
  | c :: rest => c.elm :: iterDrain ⟨it.snapshot, skipInvisible it.snapshot rest⟩
termination_by it.cur.length
decreasing_by
  simp [h]
  have hle : ∀ l : List Node, (skipInvisible it.snapshot l).length ≤ l.length := by
    intro l
    induction l with
    | nil => simp [skipInvisible]
    | cons d ds ih =>
        by_cases hv : visible d it.snapshot = true
        · simp [skipInvisible, hv]
        · simp only [skipInvisible, hv, Bool.false_eq_true, if_false]
          exact Nat.le_succ_of_le ih
  exact Nat.lt_succ_of_le (hle rest)

/-- Full iteration of the list at the current counter. -/
def ll_iterate (s : LState) : List Nat :=
  iterDrain (ll_iter_begin s)

/-! ### Transactions

A transaction records the snapshot captured at start plus four staging
buffers (the hazard / active-snapshot registration is reclamation
machinery with no effect on single-threaded list contents). -/

/-- `struct ll_txn`: snapshot plus staging buffers in staging order. -/
structure Txn where
  snapshot : Nat
  ins_head : List Nat
  ins_tail : List Nat
  ins_after : List (Nat × Nat)
  removed : List Nat
  deriving DecidableEq, Repr

/-- `ll_txn_start_`: capture the current counter, empty buffers. -/
def ll_txn_start_ (s : LState) : Txn :=
  ⟨s.commitId, [], [], [], []⟩

/-- `ll_txn_insert_head_`: append to the head-insert buffer. -/
def ll_txn_insert_head_ (t : Txn) (e : Nat) : Txn :=
  { t with ins_head := t.ins_head ++ [e] }

/-- `ll_txn_insert_tail_`: append to the tail-insert buffer. -/
def ll_txn_insert_tail_ (t : Txn) (e : Nat) : Txn :=
  { t with ins_tail := t.ins_tail ++ [e] }

/-- `ll_txn_insert_after_`: append an (anchor, element) pair. -/
def ll_txn_insert_after_ (t : Txn) (a e : Nat) : Txn :=
  { t with ins_after := t.ins_after ++ [(a, e)] }

/-- `remove_from` of the source: overwrite the first match with the last
entry and shrink by one (swap-removal, order not preserved). -/
def remove_from (l : List Nat) (e : Nat) : List Nat :=
  match l.findIdx? (· == e) with
  | some i => (l.set i (l.getLastD 0)).dropLast
  | none => l

/-- Swap-removal of the (anchor, element) pair whose element matches. -/
def remove_pair_from (l : List (Nat × Nat)) (e : Nat) : List (Nat × Nat) :=
  match l.findIdx? (fun p => p.2 == e) with
  | some i => (l.set i (l.getLastD (0, 0))).dropLast
  | none => l

/-- `ll_txn_remove_`: cancel a staged insert if `e` is in one of the
three insert buffers; otherwise stage `e` for removal only when it is
visible in the list at the transaction snapshot. -/
def ll_txn_remove_ (s : LState) (t : Txn) (e : Nat) : Txn :=
  if t.ins_head.contains e then { t with ins_head := remove_from t.ins_head e }
  else if t.ins_tail.contains e then { t with ins_tail := remove_from t.ins_tail e }
  else if t.ins_after.any (fun p => p.2 == e) then
    { t with ins_after := remove_pair_from t.ins_after e }
  else if containsChain t.snapshot e s.chain then { t with removed := t.removed ++ [e] }
  else t

/-- `ll_txn_contains_`: staged inserts count as present, staged removals
as absent, otherwise visibility at the snapshot decides. -/
def ll_txn_contains_ (s : LState) (t : Txn) (e : Nat) : Bool :=
  if t.ins_head.contains e then true
  else if t.ins_tail.contains e then true
  else if t.ins_after.any (fun p => p.2 == e) then true
  else if t.removed.contains e then false
  else containsChain t.snapshot e s.chain

/-- The middle loop of `ll_txn_foreach_`: each node visible at the
snapshot and not staged for removal, immediately followed by the staged
after-inserts anchored at its element, in staging order. -/
def foreachChain (t : Txn) : List Node → List Nat
  | [] => []
  | c :: rest =>
      if visible c t.snapshot && !t.removed.contains c.elm then
        c.elm :: ((t.ins_after.filter (fun p => p.1 == c.elm)).map Prod.snd ++ foreachChain t rest)
      else foreachChain t rest

/-- `ll_txn_foreach_`: head inserts reversed, then the snapshot walk,
then tail inserts in order (collected as the callback sequence). -/
def ll_txn_foreach_ (s : LState) (t : Txn) : List Nat :=
  t.ins_head.reverse ++ foreachChain t s.chain ++ t.ins_tail

/-- `find_last_for_anchor` of the source: last element applied for this
anchor, if any. -/
def find_last_for_anchor (arr : List (Nat × Nat)) (a : Nat) : Option Nat :=
  (arr.find? (fun p => p.1 == a)).map Prod.snd

/-- Update the first entry for `a` in place. -/
def replace_anchor : List (Nat × Nat) → Nat → Nat → List (Nat × Nat)
  | [], _, _ => []
  | p :: rest, a, e => if p.1 == a then (p.1, e) :: rest else p :: replace_anchor rest a e

/-- `set_last_for_anchor` of the source: update the entry for `a`, or
append one while capacity remains. -/
def set_last_for_anchor (arr : List (Nat × Nat)) (cap : Nat) (a e : Nat) : List (Nat × Nat) :=
  if arr.any (fun p => p.1 == a) then replace_anchor arr a e
  else if arr.length < cap then arr ++ [(a, e)] else arr

/-- The removal loop of `ll_txn_commit`: for each staged element in
order, store the single commit version C into the first matching node. -/
def commitRemoves (c : Nat) : List Nat → List Node → List Node
  | [], ch => ch
  | e :: rest, ch =>
      commitRemoves c rest
        (match removeStore c e ch with
         | some ch2 => ch2
         | none => ch)

/-- The `insert_after` loop of `ll_txn_commit`: apply staged pairs in
order, each against the most recently applied sibling for its anchor
(tracked in the `last_inserted` map). -/
def commitAfters (cap : Nat) : List (Nat × Nat) → List (Nat × Nat) → LState → LState
  | [], _, s => s
  | (a, e) :: rest, last, s =>
      commitAfters cap rest (set_last_for_anchor last cap a e)
        (ll_insert_after_ true s ((find_last_for_anchor last a).getD a) e)

/-- The `reclaim` pass run sequentially: unlink every node whose
`removed_txn_id` is nonzero and below the minimum active snapshot (the
commit counter when no transaction is active). -/
def reclaimChain (minActive : Nat) (l : List Node) : List Node :=
  l.filter (fun w => !(w.removed_txn_id != 0 && decide (w.removed_txn_id < minActive)))

/-- `ll_txn_commit`: one fresh version C for the staged removals, then
the staged after-inserts (each a full `ll_insert_after_`), then tail
inserts in order, then head inserts in reverse staging order, then a
reclaim pass. -/
def ll_txn_commit (s : LState) (t : Txn) : LState :=
  let s1 : LState := ⟨commitRemoves s.commitId t.removed s.chain, s.commitId + 1⟩
  let s2 := commitAfters t.ins_after.length t.ins_after [] s1
  let s3 := t.ins_tail.foldl (fun st e => ll_insert_tail_ true st e) s2
  let s4 := t.ins_head.reverse.foldl (fun st e => ll_insert_head_ true st e) s3
  ⟨reclaimChain s4.commitId s4.chain, s4.commitId⟩

/-- `ll_txn_rollback`: free the buffers and clear the snapshot slot; the
list itself is untouched. -/
def ll_txn_rollback (s : LState) (_ : Txn) : LState :=
  s

/-- Staging operations of a transaction session (used to quantify over
everything a caller can do to a transaction before rollback). -/
inductive TxnOp where
  | insHead (e : Nat)
  | insTail (e : Nat)
  | insAfter (a e : Nat)
  | remove (e : Nat)
  deriving DecidableEq, Repr

/-- Apply a sequence of staging operations to a transaction (the list
state is only read, never written, by staging). -/
def applyTxnOps (s : LState) (t : Txn) : List TxnOp → Txn
  | [] => t
  | op :: ops =>
      applyTxnOps s
        (match op with
         | .insHead e => ll_txn_insert_head_ t e
         | .insTail e => ll_txn_insert_tail_ t e
         | .insAfter a e => ll_txn_insert_after_ t a e
         | .remove e => ll_txn_remove_ s t e) ops

/-! ### Sequential reference model

A plain list of elements with the obvious operation semantics, used as
the refinement target for single-threaded runs. -/

/-- Reference `insert_after`: splice after the first occurrence of the
anchor, or leave the list unchanged. -/
def refInsertAfter (a e : Nat) : List Nat → List Nat
  | [] => []
  | x :: rest => if x == a then x :: e :: rest else x :: refInsertAfter a e rest

/-- Reference removal of the first occurrence. -/
def refRemove (e : Nat) : List Nat → List Nat
  | [] => []
  | x :: rest => if x == e then rest else x :: refRemove e rest

/-- Single-threaded list operations (the entry points named by the
specification property P1). -/
inductive Op where
  | insertHead (e : Nat)
  | insertTail (e : Nat)
  | insertAfter (a e : Nat)
  | removeHead
  | remove (e : Nat)
  | contains (e : Nat)
  | size
  | isEmpty
  | iterate
  deriving DecidableEq, Repr

/-- Observable result of one operation. -/
inductive Obs where
  | ok
  | oInt (i : Int)
  | oOpt (o : Option Nat)
  | oBool (b : Bool)
  | oNat (n : Nat)
  | oList (l : List Nat)
  deriving DecidableEq, Repr

/-- One step of the implementation (allocation succeeding). -/
def implStep (s : LState) : Op → LState × Obs
  | .insertHead e => (ll_insert_head_ true s e, .ok)
  | .insertTail e => (ll_insert_tail_ true s e, .ok)
  | .insertAfter a e => (ll_insert_after_ true s a e, .ok)
  | .removeHead => ((ll_remove_head_ s).2, .oOpt (ll_remove_head_ s).1)
  | .remove e => ((ll_remove_ s e).2, .oInt (ll_remove_ s e).1)
  | .contains e => (s, .oBool (ll_contains_ s e))
  | .size => (s, .oNat (ll_size_ s))
  | .isEmpty => (s, .oBool (ll_is_empty_ s))
  | .iterate => (s, .oList (ll_iterate s))

/-- One step of the reference model. -/
def refStep (l : List Nat) : Op → List Nat × Obs
  | .insertHead e => (e :: l, .ok)
  | .insertTail e => (l ++ [e], .ok)
  | .insertAfter a e => (refInsertAfter a e l, .ok)
  | .removeHead => (l.tail, .oOpt l.head?)
  | .remove e => if l.contains e then (refRemove e l, .oInt 0) else (l, .oInt (-1))
  | .contains e => (l, .oBool (l.contains e))
  | .size => (l, .oNat l.length)
  | .isEmpty => (l, .oBool l.isEmpty)
  | .iterate => (l, .oList l)

/-- Run the implementation over an operation sequence, collecting the
observations. -/
def runImpl (s : LState) : List Op → LState × List Obs
  | [] => (s, [])
  | op :: ops =>
      let r := implStep s op
      let rr := runImpl r.1 ops
      (rr.1, r.2 :: rr.2)

/-- Run the reference model over an operation sequence. -/
def runRef (l : List Nat) : List Op → List Nat × List Obs
  | [] => (l, [])
  | op :: ops =>
      let r := refStep l op
      let rr := runRef r.1 ops
      (rr.1, r.2 :: rr.2)

/-- Well-formed node at counter `c`: both version fields were minted by
earlier fetch-and-increments. -/
def wfNode (c : Nat) (w : Node) : Bool :=
  decide (w.insert_txn_id < c) && decide (w.removed_txn_id < c)

/-- Well-formed state: the counter started at 1 and dominates every
version in the chain.  Every state reachable from `ll_init_` by the
sequential operations satisfies this. -/
def wfState (s : LState) : Bool :=
  decide (1 ≤ s.commitId) && s.chain.all (wfNode s.commitId)

/-- Abstraction: the elements visible at the current counter, in chain
order (what iteration reports). -/
def absState (s : LState) : List Nat :=
  (s.chain.filter (fun w => visible w s.commitId)).map Node.elm

/-- The live elements of a chain segment (tombstones dropped). -/
def liveElems (l : List Node) : List Nat :=
  (l.filter (fun w => w.removed_txn_id == 0)).map Node.elm

/-- A remove-by-identity is benign when the first physical match for the
element, if any, is still live (no tombstone rewrite happens). -/
def removeOk (s : LState) (e : Nat) : Bool :=
  match s.chain.find? (fun w => w.elm == e) with
  | none => true
  | some w => w.removed_txn_id == 0

/-- Guard for one operation: `is_empty` is never benign (it reports
physical emptiness) and a remove must be benign in the current state. -/
def opOk (s : LState) : Op → Bool
  | .remove e => removeOk s e
  | .isEmpty => false
  | _ => true

/-- Benign single-threaded runs: every operation passes its guard at
the state where it executes. -/
def goodOps (s : LState) : List Op → Bool
  | [] => true
  | op :: ops => opOk s op && goodOps (implStep s op).1 ops

/-! ### Basic lemmas: the walking loops compute filter / map views -/

theorem containsChain_eq (sv e : Nat) (l : List Node) :
    containsChain sv e l = ((l.filter (fun w => visible w sv)).map Node.elm).contains e := by
  induction l with
  | nil => simp [containsChain]
  | cons w rest ih =>
      by_cases hv : visible w sv = true
      · by_cases he : w.elm = e
        · simp [containsChain, hv, he]
        · have hbe : (w.elm == e) = false := beq_eq_false_iff_ne.mpr he
          have hbe2 : (e == w.elm) = false := beq_eq_false_iff_ne.mpr (Ne.symm he)
          simp [containsChain, hv, hbe, ih, List.contains_cons, hbe2]
      · simp [containsChain, hv, ih]

theorem sizeChain_eq (sv : Nat) (l : List Node) :
    sizeChain sv l = (l.filter (fun w => visible w sv)).length := by
  induction l with
  | nil => simp [sizeChain]
  | cons w rest ih =>
      by_cases hv : visible w sv = true
      · simp [sizeChain, hv, ih, Nat.add_comm]
      · simp [sizeChain, hv, ih]

theorem iterDrain_skip (sv : Nat) (l : List Node) :
    iterDrain ⟨sv, skipInvisible sv l⟩ = (l.filter (fun w => visible w sv)).map Node.elm := by
  induction l with
  | nil => simp [skipInvisible, iterDrain]
  | cons w rest ih =>
      by_cases hv : visible w sv = true
      · rw [skipInvisible]
        simp only [hv, if_true]
        rw [iterDrain]
        simp [hv, ih]
      · rw [skipInvisible]
        simp only [hv, Bool.false_eq_true, if_false]
        simp [hv, ih]

theorem ll_iterate_eq_absState (s : LState) : ll_iterate s = absState s := by
  simp [ll_iterate, ll_iter_begin, absState, iterDrain_skip]

theorem removeFirstVisible_eq (sv : Nat) (l : List Node) :
    removeFirstVisible sv l =
      (((l.filter (fun w => visible w sv)).map Node.elm).head?,
       l.eraseP (fun w => visible w sv)) := by
  induction l with
  | nil => simp [removeFirstVisible]
  | cons w rest ih =>
      by_cases hv : visible w sv = true
      · simp [removeFirstVisible, hv, List.eraseP_cons_of_pos]
      · simp [removeFirstVisible, hv, ih, List.eraseP_cons_of_neg]

theorem removeStore_eq_none_iff (c e : Nat) (l : List Node) :
    removeStore c e l = none ↔ ∀ w ∈ l, w.elm ≠ e := by
  induction l with
  | nil => simp [removeStore]
  | cons w rest ih =>
      by_cases he : w.elm = e
      · simp [removeStore, he]
      · simp [removeStore, he, ih]

theorem removeStore_first_match (c e : Nat) (pre post : List Node) (w : Node)
    (hw : w.elm = e) (hpre : ∀ u ∈ pre, u.elm ≠ e) :
    removeStore c e (pre ++ w :: post) =
      some (pre ++ { w with removed_txn_id := c } :: post) := by
  induction pre with
  | nil => simp [removeStore, hw]
  | cons u us ih =>
      have hu : u.elm ≠ e := hpre u (by simp)
      have ih2 := ih (fun v hv => hpre v (by simp [hv]))
      simp [removeStore, hu, ih2]

theorem containsChain_iff (sv e : Nat) (l : List Node) :
    containsChain sv e l = true ↔ ∃ w ∈ l, w.elm = e ∧ visible w sv = true := by
  induction l with
  | nil => simp [containsChain]
  | cons w rest ih =>
      simp only [containsChain, Bool.or_eq_true, Bool.and_eq_true, beq_iff_eq, ih]
      constructor
      · rintro (⟨he, hv⟩ | ⟨u, hu, he, hv⟩)
        · exact ⟨w, by simp, he, hv⟩
        · exact ⟨u, by simp [hu], he, hv⟩
      · rintro ⟨u, hu, he, hv⟩
        rcases List.mem_cons.mp hu with h | h
        · subst h
          exact Or.inl ⟨he, hv⟩
        · exact Or.inr ⟨u, h, he, hv⟩

theorem insertAfterChain_eq_none_iff (sv anchor : Nat) (nd : Node) (l : List Node) :
    insertAfterChain sv anchor nd l = none ↔
      ∀ w ∈ l, ¬(w.elm = anchor ∧ visible w sv = true) := by
  induction l with
  | nil => simp [insertAfterChain]
  | cons w rest ih =>
      by_cases hm : (w.elm == anchor && visible w sv) = true
      · simp only [insertAfterChain, hm, if_true]
        simp only [Bool.and_eq_true, beq_iff_eq] at hm
        simp [hm]
      · rw [Bool.not_eq_true] at hm
        simp only [insertAfterChain, hm, Bool.false_eq_true, if_false]
        rw [show ∀ o : Option (List Node), (o.map (w :: ·) = none ↔ o = none) from
          fun o => by cases o <;> simp]
        rw [ih]
        constructor
        · intro hall u hu
          rcases List.mem_cons.mp hu with h | h
          · subst h
            rintro ⟨hwa, hv⟩
            simp [hwa, hv] at hm
          · exact hall u h
        · intro hall u hu
          exact hall u (List.mem_cons_of_mem _ hu)

/-! ### Claim theorems (part one) -/

/-- C1: a node is visible at S exactly when its insert version is at
most S and its removed version is 0 or exceeds S; membership, size,
iteration and transaction membership reads all report according to this
predicate (at the relevant snapshot). -/
theorem visibility_decides_reads :
    (∀ (w : Node) (S : Nat),
        visible w S = true ↔
          w.insert_txn_id ≤ S ∧ (w.removed_txn_id = 0 ∨ S < w.removed_txn_id))
    ∧ (∀ (s : LState) (e : Nat),
        ll_contains_ s e = true ↔
          ∃ w ∈ s.chain, w.elm = e ∧ visible w s.commitId = true)
    ∧ (∀ s : LState, ll_size_ s = (s.chain.filter (fun w => visible w s.commitId)).length)
    ∧ (∀ s : LState, ll_iterate s = (s.chain.filter (fun w => visible w s.commitId)).map Node.elm)
    ∧ (∀ (s : LState) (t : Txn) (e : Nat),
        t.ins_head.contains e = false → t.ins_tail.contains e = false →
        t.ins_after.any (fun p => p.2 == e) = false → t.removed.contains e = false →
        (ll_txn_contains_ s t e = true ↔
          ∃ w ∈ s.chain, w.elm = e ∧ visible w t.snapshot = true)) := by
  refine ⟨?_, ?_, ?_, ?_, ?_⟩
  · intro w S
    simp [visible]
  · intro s e
    exact containsChain_iff s.commitId e s.chain
  · intro s
    exact sizeChain_eq s.commitId s.chain
  · intro s
    rw [ll_iterate_eq_absState]
    rfl
  · intro s t e h1 h2 h3 h4
    simp only [ll_txn_contains_, h1, h2, h3, h4, Bool.false_eq_true, if_false]
    exact containsChain_iff t.snapshot e s.chain

/-- Witness for C1: a singleton list at counter 2 reports its element
through the visibility predicate in a fresh transaction. -/
theorem visibility_decides_reads_witness :
    ll_txn_contains_ ⟨[⟨5, 1, 0⟩], 2⟩ ⟨2, [], [], [], []⟩ 5 = true :=
  (visibility_decides_reads.2.2.2.2 ⟨[⟨5, 1, 0⟩], 2⟩ ⟨2, [], [], [], []⟩ 5
      rfl rfl rfl rfl).mpr ⟨⟨5, 1, 0⟩, by simp, rfl, by decide⟩

/-- C4: `ll_remove_head_` unlinks exactly the first node visible at the
snapshot S (the counter loaded at entry) and returns its element; it
returns empty exactly when no node is visible at S, tombstones
notwithstanding; the counter itself is not advanced. -/
theorem remove_head_unlinks_first_visible (s : LState) :
    ll_remove_head_ s =
      (((s.chain.filter (fun w => visible w s.commitId)).map Node.elm).head?,
       ⟨s.chain.eraseP (fun w => visible w s.commitId), s.commitId⟩)
    ∧ ((ll_remove_head_ s).1 = none ↔ ∀ w ∈ s.chain, visible w s.commitId = false) := by
  have h : ll_remove_head_ s =
      (((s.chain.filter (fun w => visible w s.commitId)).map Node.elm).head?,
       ⟨s.chain.eraseP (fun w => visible w s.commitId), s.commitId⟩) := by
    simp [ll_remove_head_, removeFirstVisible_eq]
  refine ⟨h, ?_⟩
  rw [h]
  simp [List.head?_eq_none_iff, List.filter_eq_nil_iff]

/-- C3 (code bug): a second remove of the same element overwrites the
nonzero `removed_txn_id` (2 becomes 3) and reports success again; the
overwrite resurrects the node for snapshot 2, at which it had already
been invisible. -/
theorem remove_overwrites_tombstone :
    (ll_remove_ (ll_insert_head_ true ll_init_ 1) 1).2.chain = [⟨1, 1, 2⟩]
    ∧ (ll_remove_ (ll_remove_ (ll_insert_head_ true ll_init_ 1) 1).2 1).1 = 0
    ∧ (ll_remove_ (ll_remove_ (ll_insert_head_ true ll_init_ 1) 1).2 1).2.chain = [⟨1, 1, 3⟩]
    ∧ visible ⟨1, 1, 2⟩ 2 = false
    ∧ visible ⟨1, 1, 3⟩ 2 = true := by
  decide

/-- C5: `ll_txn_foreach_` visits staged head inserts latest-first, then
every node visible at the snapshot and not staged for removal — each
immediately followed by the after-inserts staged against its element,
in staging order — then the staged tail inserts in staging order. -/
theorem txn_foreach_order (s : LState) (t : Txn) :
    ll_txn_foreach_ s t =
      t.ins_head.reverse
      ++ (s.chain.filter
            (fun c => visible c t.snapshot && !t.removed.contains c.elm)).flatMap
           (fun c => c.elm :: (t.ins_after.filter (fun p => p.1 == c.elm)).map Prod.snd)
      ++ t.ins_tail := by
  have h : ∀ l : List Node,
      foreachChain t l =
        (l.filter (fun c => visible c t.snapshot && !t.removed.contains c.elm)).flatMap
          (fun c => c.elm :: (t.ins_after.filter (fun p => p.1 == c.elm)).map Prod.snd) := by
    intro l
    induction l with
    | nil => simp [foreachChain]
    | cons c rest ih =>
        cases h1 : visible c t.snapshot with
        | false => simp [foreachChain, h1, ih]
        | true =>
            cases h2 : t.removed.contains c.elm with
            | false =>
                simp at h2
                simp [foreachChain, h1, h2, ih]
            | true =>
                simp at h2
                simp [foreachChain, h1, h2, ih]
  simp [ll_txn_foreach_, h]

/-- C7: `ll_remove_` reports not-found exactly when no chain node
carries the element; otherwise it stores the (nonzero) counter value
into the first identity-matching node and reports success. -/
theorem remove_by_identity_spec (s : LState) (e : Nat) (hpos : 1 ≤ s.commitId) :
    ((ll_remove_ s e).1 = -1 ↔ ∀ w ∈ s.chain, w.elm ≠ e)
    ∧ (∀ pre w post, s.chain = pre ++ w :: post → w.elm = e → (∀ u ∈ pre, u.elm ≠ e) →
        (ll_remove_ s e).1 = 0 ∧
        (ll_remove_ s e).2.chain = pre ++ { w with removed_txn_id := s.commitId } :: post ∧
        ({ w with removed_txn_id := s.commitId } : Node).removed_txn_id ≠ 0) := by
  constructor
  · cases h : removeStore s.commitId e s.chain with
    | none =>
        simp only [ll_remove_, h]
        simpa using (removeStore_eq_none_iff s.commitId e s.chain).mp h
    | some ch =>
        simp only [ll_remove_, h]
        constructor
        · intro hc
          exact absurd hc (by decide)
        · intro hall
          rw [(removeStore_eq_none_iff s.commitId e s.chain).mpr hall] at h
          exact absurd h (by simp)
  · intro pre w post hchain hw hpre
    have hs : removeStore s.commitId e s.chain =
        some (pre ++ { w with removed_txn_id := s.commitId } :: post) := by
      rw [hchain]
      exact removeStore_first_match s.commitId e pre post w hw hpre
    simp only [ll_remove_, hs]
    exact ⟨trivial, trivial, by omega⟩

/-- Witness for C7: removing the only element of a singleton list
tombstones it with the current counter value. -/
theorem remove_by_identity_spec_witness :
    (ll_remove_ ⟨[⟨3, 1, 0⟩], 2⟩ 3).1 = 0
    ∧ (ll_remove_ ⟨[⟨3, 1, 0⟩], 2⟩ 3).2.chain = [⟨3, 1, 2⟩] := by
  have h := (remove_by_identity_spec ⟨[⟨3, 1, 0⟩], 2⟩ 3 (by decide)).2
      [] ⟨3, 1, 0⟩ [] rfl rfl (by simp)
  exact ⟨h.1, by simpa using h.2.1⟩

/-- C9: after inserting one element and removing it by identity (no
reclaim runs), size is 0 and membership is false for every element, yet
`ll_is_empty_` still answers false: the tombstone is physically linked. -/
theorem is_empty_reports_physical_emptiness :
    ll_size_ (ll_remove_ (ll_insert_head_ true ll_init_ 7) 7).2 = 0
    ∧ (∀ e : Nat, ll_contains_ (ll_remove_ (ll_insert_head_ true ll_init_ 7) 7).2 e = false)
    ∧ ll_is_empty_ (ll_remove_ (ll_insert_head_ true ll_init_ 7) 7).2 = false := by
  refine ⟨by decide, ?_, by decide⟩
  intro e
  show ll_contains_ ⟨[⟨7, 1, 2⟩], 3⟩ e = false
  simp [ll_contains_, containsChain, visible]

/-- C10: every mutating entry point consumes one counter value even
when the chain is untouched: remove of an absent element, insert-after
with a missing anchor, and head or tail insert whose allocation fails. -/
theorem mutators_always_advance_counter (s : LState) (a e : Nat) :
    (ll_remove_ s e).2.commitId = s.commitId + 1
    ∧ ((∀ w ∈ s.chain, w.elm ≠ e) → (ll_remove_ s e).2.chain = s.chain)
    ∧ (ll_insert_after_ true s a e).commitId = s.commitId + 1
    ∧ ((∀ w ∈ s.chain, ¬(w.elm = a ∧ visible w s.commitId = true)) →
        (ll_insert_after_ true s a e).chain = s.chain)
    ∧ ll_insert_head_ false s e = ⟨s.chain, s.commitId + 1⟩
    ∧ ll_insert_tail_ false s e = ⟨s.chain, s.commitId + 1⟩
    ∧ ll_insert_after_ false s a e = ⟨s.chain, s.commitId + 1⟩ := by
  refine ⟨?_, ?_, ?_, ?_, rfl, rfl, rfl⟩
  · cases h : removeStore s.commitId e s.chain with
    | none => simp [ll_remove_, h]
    | some ch => simp [ll_remove_, h]
  · intro hall
    rw [ll_remove_, (removeStore_eq_none_iff s.commitId e s.chain).mpr hall]
  · cases h : insertAfterChain s.commitId a ⟨e, s.commitId, 0⟩ s.chain with
    | none => simp [ll_insert_after_, h]
    | some ch => simp [ll_insert_after_, h]
  · intro hall
    rw [ll_insert_after_,
      (insertAfterChain_eq_none_iff s.commitId a ⟨e, s.commitId, 0⟩ s.chain).mpr hall]
    rfl

/-- Witness for C10: removing from the empty list leaves the chain
empty but still advances the counter from 1 to 2. -/
theorem mutators_always_advance_counter_witness :
    (ll_remove_ ll_init_ 5).2.chain = [] ∧ (ll_remove_ ll_init_ 5).2.commitId = 2 := by
  have h := mutators_always_advance_counter ll_init_ 4 5
  exact ⟨h.2.1 (by simp [ll_init_]), h.1⟩

/-- C2 (counterexample to the claim as stated): after inserting element
1 and removing it, the implementation answers `is_empty = false` where
the plain sequential list answers true; and a second remove of 1
reports success (0) where the reference reports not-found (-1). -/
theorem seq_refinement_fails_as_stated :
    (runImpl ll_init_ [.insertHead 1, .remove 1, .isEmpty]).2
      ≠ (runRef [] [.insertHead 1, .remove 1, .isEmpty]).2
    ∧ (runImpl ll_init_ [.insertHead 1, .remove 1, .remove 1]).2
      ≠ (runRef [] [.insertHead 1, .remove 1, .remove 1]).2 := by
  decide

theorem ll_txn_remove_snapshot (s : LState) (t : Txn) (e : Nat) :
    (ll_txn_remove_ s t e).snapshot = t.snapshot := by
  rw [ll_txn_remove_]
  split_ifs <;> rfl

theorem ll_txn_remove_removed_sound (s : LState) (t : Txn) (e : Nat) :
    ∀ x ∈ (ll_txn_remove_ s t e).removed,
      x ∈ t.removed ∨ containsChain t.snapshot x s.chain = true := by
  rw [ll_txn_remove_]
  split_ifs with h1 h2 h3 h4
  · exact fun x hx => Or.inl hx
  · exact fun x hx => Or.inl hx
  · exact fun x hx => Or.inl hx
  · intro x hx
    rcases List.mem_append.mp hx with h | h
    · exact Or.inl h
    · simp only [List.mem_singleton] at h
      subst h
      exact Or.inr h4
  · exact fun x hx => Or.inl hx

theorem applyTxnOps_snapshot (s : LState) :
    ∀ (ops : List TxnOp) (t : Txn), (applyTxnOps s t ops).snapshot = t.snapshot := by
  intro ops
  induction ops with
  | nil => intro t; rfl
  | cons op rest ih =>
      intro t
      cases op with
      | insHead e => rw [applyTxnOps]; exact ih _
      | insTail e => rw [applyTxnOps]; exact ih _
      | insAfter a e => rw [applyTxnOps]; exact ih _
      | remove e =>
          rw [applyTxnOps]
          exact (ih _).trans (ll_txn_remove_snapshot s t e)

theorem applyTxnOps_removed_sound (s : LState) :
    ∀ (ops : List TxnOp) (t : Txn),
      (∀ x ∈ t.removed, containsChain t.snapshot x s.chain = true) →
      ∀ x ∈ (applyTxnOps s t ops).removed,
        containsChain (applyTxnOps s t ops).snapshot x s.chain = true := by
  intro ops
  induction ops with
  | nil => intro t ht; exact ht
  | cons op rest ih =>
      intro t ht
      cases op with
      | insHead e => rw [applyTxnOps]; exact ih _ ht
      | insTail e => rw [applyTxnOps]; exact ih _ ht
      | insAfter a e => rw [applyTxnOps]; exact ih _ ht
      | remove e =>
          rw [applyTxnOps]
          refine ih _ ?_
          intro x hx
          rw [ll_txn_remove_snapshot]
          rcases ll_txn_remove_removed_sound s t e x hx with h | h
          · exact ht x h
          · exact h

/-- C8: rolling back a transaction built by any sequence of staging
operations returns the untouched list: every read (membership, size,
iteration) reports exactly what it reported before the transaction
started, and every element staged in the remove buffer is still
contained in the list. -/
theorem txn_rollback_no_mutation (s : LState) (ops : List TxnOp) :
    ll_txn_rollback s (applyTxnOps s (ll_txn_start_ s) ops) = s
    ∧ (∀ e, ll_contains_ (ll_txn_rollback s (applyTxnOps s (ll_txn_start_ s) ops)) e
          = ll_contains_ s e)
    ∧ ll_size_ (ll_txn_rollback s (applyTxnOps s (ll_txn_start_ s) ops)) = ll_size_ s
    ∧ ll_iterate (ll_txn_rollback s (applyTxnOps s (ll_txn_start_ s) ops)) = ll_iterate s
    ∧ (∀ e ∈ (applyTxnOps s (ll_txn_start_ s) ops).removed,
        ll_contains_ (ll_txn_rollback s (applyTxnOps s (ll_txn_start_ s) ops)) e = true) := by
  refine ⟨rfl, fun e => rfl, rfl, rfl, ?_⟩
  intro e he
  have h := applyTxnOps_removed_sound s ops (ll_txn_start_ s) (by simp [ll_txn_start_]) e he
  rw [applyTxnOps_snapshot] at h
  exact h

/-- Witness for C8: staging a tail insert and a removal of the only
element, then rolling back, leaves the singleton list intact; the
staged removal target is still contained. -/
theorem txn_rollback_no_mutation_witness :
    ll_txn_rollback ⟨[⟨4, 1, 0⟩], 2⟩
        (applyTxnOps ⟨[⟨4, 1, 0⟩], 2⟩ (ll_txn_start_ ⟨[⟨4, 1, 0⟩], 2⟩) [.insTail 9, .remove 4])
      = ⟨[⟨4, 1, 0⟩], 2⟩
    ∧ ll_contains_ (ll_txn_rollback ⟨[⟨4, 1, 0⟩], 2⟩
        (applyTxnOps ⟨[⟨4, 1, 0⟩], 2⟩ (ll_txn_start_ ⟨[⟨4, 1, 0⟩], 2⟩) [.insTail 9, .remove 4])) 4
      = true := by
  have h := txn_rollback_no_mutation ⟨[⟨4, 1, 0⟩], 2⟩ [.insTail 9, .remove 4]
  exact ⟨h.1, h.2.2.2.2 4 (by decide)⟩

/-! ### Sequential refinement: invariant and per-operation lemmas -/

theorem wfNode_mono (c c2 : Nat) (w : Node) (h : wfNode c w = true) (hle : c ≤ c2) :
    wfNode c2 w = true := by
  simp only [wfNode, Bool.and_eq_true, decide_eq_true_eq] at h ⊢
  omega

theorem visible_of_wf (c : Nat) (w : Node) (h : wfNode c w = true) :
    visible w c = (w.removed_txn_id == 0) := by
  simp only [wfNode, Bool.and_eq_true, decide_eq_true_eq] at h
  have h1 : decide (w.insert_txn_id ≤ c) = true := by
    simp only [decide_eq_true_eq]
    omega
  have h2 : decide (c < w.removed_txn_id) = false := by
    simp only [decide_eq_false_iff_not]
    omega
  simp [visible, h1, h2]

theorem wfState_iff (s : LState) :
    wfState s = true ↔ 1 ≤ s.commitId ∧ ∀ w ∈ s.chain, wfNode s.commitId w = true := by
  simp [wfState, List.all_eq_true]

theorem filter_visible_eq_live (c : Nat) (l : List Node)
    (h : ∀ w ∈ l, wfNode c w = true) :
    l.filter (fun w => visible w c) = l.filter (fun w => w.removed_txn_id == 0) := by
  refine List.filter_congr ?_
  intro w hw
  exact visible_of_wf c w (h w hw)

theorem absState_eq_live (s : LState) (h : wfState s = true) :
    absState s = liveElems s.chain := by
  rcases (wfState_iff s).mp h with ⟨_, hall⟩
  rw [absState, liveElems, filter_visible_eq_live s.commitId s.chain hall]

theorem liveElems_cons_live (c : Node) (l : List Node) (h : c.removed_txn_id = 0) :
    liveElems (c :: l) = c.elm :: liveElems l := by
  simp [liveElems, h]

theorem liveElems_cons_dead (c : Node) (l : List Node) (h : c.removed_txn_id ≠ 0) :
    liveElems (c :: l) = liveElems l := by
  simp [liveElems, h]

theorem liveElems_append (l1 l2 : List Node) :
    liveElems (l1 ++ l2) = liveElems l1 ++ liveElems l2 := by
  simp [liveElems]

theorem not_mem_liveElems (e : Nat) (l : List Node) (h : ∀ w ∈ l, w.elm ≠ e) :
    e ∉ liveElems l := by
  simp only [liveElems, List.mem_map, List.mem_filter]
  rintro ⟨w, ⟨hw, _⟩, he⟩
  exact h w hw he

/-- `ll_insert_head_` refines consing. -/
theorem step_insert_head (s : LState) (e : Nat) (h : wfState s = true) :
    wfState (ll_insert_head_ true s e) = true
    ∧ absState (ll_insert_head_ true s e) = e :: absState s := by
  rcases (wfState_iff s).mp h with ⟨hpos, hall⟩
  have hs2 : ll_insert_head_ true s e = ⟨⟨e, s.commitId, 0⟩ :: s.chain, s.commitId + 1⟩ := rfl
  have hwf2 : wfState (ll_insert_head_ true s e) = true := by
    rw [hs2, wfState_iff]
    refine ⟨by exact Nat.le_add_left 1 s.commitId, ?_⟩
    intro w hw
    rcases List.mem_cons.mp hw with h1 | h1
    · subst h1
      simp only [wfNode, Bool.and_eq_true, decide_eq_true_eq]
      omega
    · exact wfNode_mono s.commitId (s.commitId + 1) w (hall w h1) (Nat.le_succ _)
  refine ⟨hwf2, ?_⟩
  rw [absState_eq_live _ hwf2, absState_eq_live _ h, hs2]
  show liveElems (⟨e, s.commitId, 0⟩ :: s.chain) = e :: liveElems s.chain
  exact liveElems_cons_live _ _ rfl

/-- `ll_insert_tail_` refines appending. -/
theorem step_insert_tail (s : LState) (e : Nat) (h : wfState s = true) :
    wfState (ll_insert_tail_ true s e) = true
    ∧ absState (ll_insert_tail_ true s e) = absState s ++ [e] := by
  rcases (wfState_iff s).mp h with ⟨hpos, hall⟩
  have hs2 : ll_insert_tail_ true s e = ⟨s.chain ++ [⟨e, s.commitId, 0⟩], s.commitId + 1⟩ := rfl
  have hwf2 : wfState (ll_insert_tail_ true s e) = true := by
    rw [hs2, wfState_iff]
    refine ⟨by exact Nat.le_add_left 1 s.commitId, ?_⟩
    intro w hw
    rcases List.mem_append.mp hw with h1 | h1
    · exact wfNode_mono s.commitId (s.commitId + 1) w (hall w h1) (Nat.le_succ _)
    · have h2 := List.mem_singleton.mp h1
      subst h2
      simp only [wfNode, Bool.and_eq_true, decide_eq_true_eq]
      omega
  refine ⟨hwf2, ?_⟩
  rw [absState_eq_live _ hwf2, absState_eq_live _ h, hs2]
  show liveElems (s.chain ++ [⟨e, s.commitId, 0⟩]) = liveElems s.chain ++ [e]
  rw [liveElems_append]
  rfl

theorem refInsertAfter_not_mem (a e : Nat) (l : List Nat) (h : a ∉ l) :
    refInsertAfter a e l = l := by
  induction l with
  | nil => rfl
  | cons x rest ih =>
      have hx : x ≠ a := fun hxa => h (by simp [hxa])
      have hbe : (x == a) = false := beq_eq_false_iff_ne.mpr hx
      rw [refInsertAfter, hbe]
      simp only [Bool.false_eq_true, if_false, List.cons.injEq, true_and]
      exact ih (fun hm => h (List.mem_cons_of_mem _ hm))

/-- Kernel of the `insert_after` refinement: under the counter-dominance
invariant, the splice walk either reports the anchor invisible (and the
chain is untouched) or produces a chain whose live view is the reference
insertion; the output chain only contains old nodes and the new one. -/
theorem insAfter_live (C a e : Nat) :
    ∀ l : List Node, (∀ w ∈ l, wfNode C w = true) →
      (insertAfterChain C a ⟨e, C, 0⟩ l = none → a ∉ liveElems l)
      ∧ (∀ l2, insertAfterChain C a ⟨e, C, 0⟩ l = some l2 →
          liveElems l2 = refInsertAfter a e (liveElems l)
          ∧ ∀ w ∈ l2, w ∈ l ∨ w = ⟨e, C, 0⟩) := by
  intro l
  induction l with
  | nil =>
      intro _
      refine ⟨fun _ => by simp [liveElems], ?_⟩
      intro l2 h
      simp [insertAfterChain] at h
  | cons c rest ih =>
      intro hall
      have hcwf := hall c (by simp)
      have hrest : ∀ w ∈ rest, wfNode C w = true :=
        fun w hw => hall w (List.mem_cons_of_mem _ hw)
      have ihr := ih hrest
      by_cases hm : (c.elm == a && visible c C) = true
      · have hc : c.elm = a ∧ visible c C = true := by simpa using hm
        have hlive : c.removed_txn_id = 0 := by
          have hv := hc.2
          rw [visible_of_wf C c hcwf] at hv
          simpa using hv
        constructor
        · intro hnone
          rw [insertAfterChain, if_pos hm] at hnone
          exact absurd hnone (by simp)
        · intro l2 hsome
          rw [insertAfterChain, if_pos hm] at hsome
          have hl2 : l2 = c :: ⟨e, C, 0⟩ :: rest := (Option.some_inj.mp hsome).symm
          subst hl2
          refine ⟨?_, ?_⟩
          · rw [liveElems_cons_live _ _ hlive, liveElems_cons_live _ _ rfl,
              liveElems_cons_live _ _ hlive]
            have hbe : (c.elm == a) = true := by simp [hc.1]
            rw [refInsertAfter, hbe]
            simp
          · intro w hw
            rcases List.mem_cons.mp hw with h1 | h1
            · exact Or.inl (by simp [h1])
            · rcases List.mem_cons.mp h1 with h2 | h2
              · exact Or.inr h2
              · exact Or.inl (List.mem_cons_of_mem _ h2)
      · have hnm : ¬(c.elm = a ∧ visible c C = true) := by
          intro hcon
          exact hm (by simp [hcon.1, hcon.2])
        constructor
        · intro hnone
          rw [insertAfterChain, if_neg hm] at hnone
          have hinner : insertAfterChain C a ⟨e, C, 0⟩ rest = none := by
            cases hr : insertAfterChain C a ⟨e, C, 0⟩ rest with
            | none => rfl
            | some lr => rw [hr] at hnone; exact absurd hnone (by simp)
          have hnr := ihr.1 hinner
          by_cases hl : c.removed_txn_id = 0
          · rw [liveElems_cons_live _ _ hl]
            have hv : visible c C = true := by
              rw [visible_of_wf C c hcwf]
              simp [hl]
            have hne : c.elm ≠ a := fun hmm2 => hnm ⟨hmm2, hv⟩
            simp only [List.mem_cons]
            rintro (h1 | h1)
            · exact hne h1.symm
            · exact hnr h1
          · rw [liveElems_cons_dead _ _ hl]
            exact hnr
        · intro l2 hsome
          rw [insertAfterChain, if_neg hm] at hsome
          cases hr : insertAfterChain C a ⟨e, C, 0⟩ rest with
          | none => rw [hr] at hsome; exact absurd hsome (by simp)
          | some lr =>
              rw [hr] at hsome
              simp only [Option.map_some'] at hsome
              have hl2 : l2 = c :: lr := (Option.some_inj.mp hsome).symm
              subst hl2
              obtain ⟨habs, hmem⟩ := ihr.2 lr hr
              refine ⟨?_, ?_⟩
              · by_cases hl : c.removed_txn_id = 0
                · have hv : visible c C = true := by
                    rw [visible_of_wf C c hcwf]
                    simp [hl]
                  have hne : c.elm ≠ a := fun h2 => hnm ⟨h2, hv⟩
                  have hbe : (c.elm == a) = false := beq_eq_false_iff_ne.mpr hne
                  rw [liveElems_cons_live _ _ hl, liveElems_cons_live _ _ hl,
                    refInsertAfter, hbe]
                  simp only [Bool.false_eq_true, if_false, List.cons.injEq, true_and]
                  exact habs
                · rw [liveElems_cons_dead _ _ hl, liveElems_cons_dead _ _ hl]
                  exact habs
              · intro w hw
                rcases List.mem_cons.mp hw with h1 | h1
                · exact Or.inl (by simp [h1])
                · rcases hmem w h1 with h2 | h2
                  · exact Or.inl (List.mem_cons_of_mem _ h2)
                  · exact Or.inr h2

/-- `ll_insert_after_` refines the reference splice. -/
theorem step_insert_after (s : LState) (a e : Nat) (h : wfState s = true) :
    wfState (ll_insert_after_ true s a e) = true
    ∧ absState (ll_insert_after_ true s a e) = refInsertAfter a e (absState s) := by
  rcases (wfState_iff s).mp h with ⟨hpos, hall⟩
  have hk := insAfter_live s.commitId a e s.chain hall
  cases hr : insertAfterChain s.commitId a ⟨e, s.commitId, 0⟩ s.chain with
  | none =>
      have hs2 : ll_insert_after_ true s a e = ⟨s.chain, s.commitId + 1⟩ := by
        simp only [ll_insert_after_, hr, if_true]
      have hwf2 : wfState ⟨s.chain, s.commitId + 1⟩ = true := by
        rw [wfState_iff]
        exact ⟨Nat.le_add_left 1 s.commitId, fun w hw =>
          wfNode_mono s.commitId (s.commitId + 1) w (hall w hw) (Nat.le_succ _)⟩
      rw [hs2]
      refine ⟨hwf2, ?_⟩
      rw [absState_eq_live _ hwf2, absState_eq_live _ h]
      show liveElems s.chain = refInsertAfter a e (liveElems s.chain)
      exact (refInsertAfter_not_mem a e _ (hk.1 hr)).symm
  | some l2 =>
      obtain ⟨habs, hmem⟩ := hk.2 l2 hr
      have hs2 : ll_insert_after_ true s a e = ⟨l2, s.commitId + 1⟩ := by
        simp only [ll_insert_after_, hr, if_true]
      have hwf2 : wfState ⟨l2, s.commitId + 1⟩ = true := by
        rw [wfState_iff]
        refine ⟨Nat.le_add_left 1 s.commitId, ?_⟩
        intro w hw
        rcases hmem w hw with h1 | h1
        · exact wfNode_mono s.commitId (s.commitId + 1) w (hall w h1) (Nat.le_succ _)
        · subst h1
          simp only [wfNode, Bool.and_eq_true, decide_eq_true_eq]
          omega
      rw [hs2]
      refine ⟨hwf2, ?_⟩
      rw [absState_eq_live _ hwf2, absState_eq_live _ h]
      exact habs

theorem liveElems_eraseP (C : Nat) (l : List Node) (hall : ∀ w ∈ l, wfNode C w = true) :
    liveElems (l.eraseP (fun w => visible w C)) = (liveElems l).tail := by
  induction l with
  | nil => simp [liveElems]
  | cons c rest ih =>
      have hcwf := hall c (by simp)
      have hrest : ∀ w ∈ rest, wfNode C w = true :=
        fun w hw => hall w (List.mem_cons_of_mem _ hw)
      by_cases hl : c.removed_txn_id = 0
      · have hv : visible c C = true := by
          rw [visible_of_wf C c hcwf]
          simp [hl]
        rw [List.eraseP_cons_of_pos (p := fun w => visible w C) hv, liveElems_cons_live _ _ hl]
        rfl
      · have hv : visible c C = false := by
          rw [visible_of_wf C c hcwf]
          simpa using hl
        rw [List.eraseP_cons_of_neg (p := fun w => visible w C) (by simp [hv]), liveElems_cons_dead _ _ hl,
          liveElems_cons_dead _ _ hl]
        exact ih hrest

/-- `ll_remove_head_` refines popping the first element of the abstract
list. -/
theorem step_remove_head (s : LState) (h : wfState s = true) :
    wfState (ll_remove_head_ s).2 = true
    ∧ absState (ll_remove_head_ s).2 = (absState s).tail
    ∧ (ll_remove_head_ s).1 = (absState s).head? := by
  rcases (wfState_iff s).mp h with ⟨hpos, hall⟩
  have hrw : ll_remove_head_ s =
      (((s.chain.filter (fun w => visible w s.commitId)).map Node.elm).head?,
       ⟨s.chain.eraseP (fun w => visible w s.commitId), s.commitId⟩) := by
    simp [ll_remove_head_, removeFirstVisible_eq]
  have hwf2 : wfState ⟨s.chain.eraseP (fun w => visible w s.commitId), s.commitId⟩ = true := by
    rw [wfState_iff]
    exact ⟨hpos, fun w hw => hall w (List.mem_of_mem_eraseP hw)⟩
  rw [hrw]
  refine ⟨hwf2, ?_, rfl⟩
  rw [absState_eq_live _ hwf2, absState_eq_live _ h]
  exact liveElems_eraseP s.commitId s.chain hall

/-- Kernel of the benign remove-by-identity refinement: when the first
physical match is live, the tombstoning walk refines removal of the
first abstract occurrence. -/
theorem remove_live_case (C e : Nat) :
    ∀ (l : List Node) (w : Node), (∀ u ∈ l, wfNode C u = true) → 1 ≤ C →
      l.find? (fun u => u.elm == e) = some w → w.removed_txn_id = 0 →
      ∃ l2, removeStore C e l = some l2
        ∧ liveElems l2 = refRemove e (liveElems l)
        ∧ e ∈ liveElems l
        ∧ (∀ u ∈ l2, wfNode (C + 1) u = true) := by
  intro l
  induction l with
  | nil =>
      intro w _ _ hf
      simp at hf
  | cons c rest ih =>
      intro w hall hC hf hw
      have hcwf := hall c (by simp)
      have hrest : ∀ u ∈ rest, wfNode C u = true :=
        fun u hu => hall u (List.mem_cons_of_mem _ hu)
      by_cases hm : (c.elm == e) = true
      · have hwc : w = c := by
          rw [List.find?_cons_of_pos (p := fun (u : Node) => u.elm == e) _ hm] at hf
          exact (Option.some_inj.mp hf).symm
        subst hwc
        have he : w.elm = e := by simpa using hm
        refine ⟨{ w with removed_txn_id := C } :: rest, ?_, ?_, ?_, ?_⟩
        · rw [removeStore, if_pos hm]
        · have hdead : ({ w with removed_txn_id := C } : Node).removed_txn_id ≠ 0 := by
            simp only [ne_eq]
            omega
          rw [liveElems_cons_dead _ _ hdead, liveElems_cons_live _ _ hw, he, refRemove]
          simp
        · rw [liveElems_cons_live _ _ hw, he]
          simp
        · intro u hu
          rcases List.mem_cons.mp hu with h1 | h1
          · subst h1
            have := hcwf
            simp only [wfNode, Bool.and_eq_true, decide_eq_true_eq] at this ⊢
            omega
          · exact wfNode_mono C (C + 1) u (hrest u h1) (Nat.le_succ _)
      · rw [List.find?_cons_of_neg (p := fun (u : Node) => u.elm == e) _ hm] at hf
        obtain ⟨l2r, h1, h2, h3, h4⟩ := ih w hrest hC hf hw
        refine ⟨c :: l2r, ?_, ?_, ?_, ?_⟩
        · rw [removeStore, if_neg hm, h1]
          rfl
        · by_cases hl : c.removed_txn_id = 0
          · have hne : (c.elm == e) = false := by simpa using hm
            rw [liveElems_cons_live _ _ hl, liveElems_cons_live _ _ hl, refRemove, hne]
            simp only [Bool.false_eq_true, if_false, List.cons.injEq, true_and]
            exact h2
          · rw [liveElems_cons_dead _ _ hl, liveElems_cons_dead _ _ hl]
            exact h2
        · by_cases hl : c.removed_txn_id = 0
          · rw [liveElems_cons_live _ _ hl]
            exact List.mem_cons_of_mem _ h3
          · rw [liveElems_cons_dead _ _ hl]
            exact h3
        · intro u hu
          rcases List.mem_cons.mp hu with hu1 | hu1
          · subst hu1
            exact wfNode_mono C (C + 1) u hcwf (Nat.le_succ _)
          · exact h4 u hu1

/-- `ll_remove_` refines reference removal on benign inputs. -/
theorem step_remove (s : LState) (e : Nat) (h : wfState s = true)
    (hok : removeOk s e = true) :
    wfState (ll_remove_ s e).2 = true
    ∧ (((ll_remove_ s e).1 = 0 ∧ e ∈ absState s
          ∧ absState (ll_remove_ s e).2 = refRemove e (absState s))
       ∨ ((ll_remove_ s e).1 = -1 ∧ e ∉ absState s
          ∧ absState (ll_remove_ s e).2 = absState s)) := by
  rcases (wfState_iff s).mp h with ⟨hpos, hall⟩
  cases hf : s.chain.find? (fun u => u.elm == e) with
  | none =>
      have hnone : ∀ u ∈ s.chain, u.elm ≠ e := by
        intro u hu
        have := List.find?_eq_none.mp hf u hu
        simpa using this
      have hrs : removeStore s.commitId e s.chain = none :=
        (removeStore_eq_none_iff s.commitId e s.chain).mpr hnone
      have hs2 : ll_remove_ s e = (-1, ⟨s.chain, s.commitId + 1⟩) := by
        simp only [ll_remove_, hrs]
      have hwf2 : wfState ⟨s.chain, s.commitId + 1⟩ = true := by
        rw [wfState_iff]
        exact ⟨Nat.le_add_left 1 s.commitId, fun w hw =>
          wfNode_mono s.commitId (s.commitId + 1) w (hall w hw) (Nat.le_succ _)⟩
      rw [hs2]
      refine ⟨hwf2, Or.inr ⟨rfl, ?_, ?_⟩⟩
      · rw [absState_eq_live _ h]
        exact not_mem_liveElems e s.chain hnone
      · show absState ⟨s.chain, s.commitId + 1⟩ = absState s
        rw [absState_eq_live _ hwf2, absState_eq_live _ h]
  | some w =>
      have hw : w.removed_txn_id = 0 := by
        rw [removeOk, hf] at hok
        simpa using hok
      obtain ⟨l2, h1, h2, h3, h4⟩ :=
        remove_live_case s.commitId e s.chain w hall hpos hf hw
      have hs2 : ll_remove_ s e = (0, ⟨l2, s.commitId + 1⟩) := by
        simp only [ll_remove_, h1]
      have hwf2 : wfState ⟨l2, s.commitId + 1⟩ = true := by
        rw [wfState_iff]
        exact ⟨Nat.le_add_left 1 s.commitId, h4⟩
      rw [hs2]
      refine ⟨hwf2, Or.inl ⟨rfl, ?_, ?_⟩⟩
      · rw [absState_eq_live _ h]
        exact h3
      · show absState ⟨l2, s.commitId + 1⟩ = refRemove e (absState s)
        rw [absState_eq_live _ hwf2, absState_eq_live _ h]
        exact h2

theorem ll_contains_abs (s : LState) (e : Nat) :
    ll_contains_ s e = (absState s).contains e := by
  rw [ll_contains_, containsChain_eq]
  rfl

theorem ll_size_abs (s : LState) :
    ll_size_ s = (absState s).length := by
  rw [ll_size_, sizeChain_eq, absState, List.length_map]

/-- Main refinement induction: along any benign run, the implementation
and the reference produce the same observations, the abstraction maps
the final state to the final reference list, and well-formedness is
preserved. -/
theorem runImpl_refines (ops : List Op) :
    ∀ s : LState, wfState s = true → goodOps s ops = true →
      (runImpl s ops).2 = (runRef (absState s) ops).2
      ∧ absState (runImpl s ops).1 = (runRef (absState s) ops).1
      ∧ wfState (runImpl s ops).1 = true := by
  induction ops with
  | nil => exact fun s hwf _ => ⟨rfl, rfl, hwf⟩
  | cons op rest ih =>
      intro s hwf hgood
      have hg : opOk s op = true ∧ goodOps (implStep s op).1 rest = true := by
        rw [goodOps, Bool.and_eq_true] at hgood
        exact hgood
      obtain ⟨habs, hobs, hwf2⟩ : absState (implStep s op).1 = (refStep (absState s) op).1
          ∧ (implStep s op).2 = (refStep (absState s) op).2
          ∧ wfState (implStep s op).1 = true := by
        cases op with
        | insertHead e =>
            exact ⟨(step_insert_head s e hwf).2, rfl, (step_insert_head s e hwf).1⟩
        | insertTail e =>
            exact ⟨(step_insert_tail s e hwf).2, rfl, (step_insert_tail s e hwf).1⟩
        | insertAfter a e =>
            exact ⟨(step_insert_after s a e hwf).2, rfl, (step_insert_after s a e hwf).1⟩
        | removeHead =>
            obtain ⟨h1, h2, h3⟩ := step_remove_head s hwf
            refine ⟨?_, ?_, h1⟩
            · show absState (ll_remove_head_ s).2 = (refStep (absState s) Op.removeHead).1
              rw [h2]
              rfl
            · show Obs.oOpt (ll_remove_head_ s).1 = (refStep (absState s) Op.removeHead).2
              rw [h3]
              rfl
        | remove e =>
            obtain ⟨h1, hcase⟩ := step_remove s e hwf hg.1
            rcases hcase with ⟨hr, hmem, habs2⟩ | ⟨hr, hmem, habs2⟩
            · refine ⟨?_, ?_, h1⟩
              · show absState (ll_remove_ s e).2 = (refStep (absState s) (Op.remove e)).1
                rw [habs2]
                simp [refStep, hmem]
              · show Obs.oInt (ll_remove_ s e).1 = (refStep (absState s) (Op.remove e)).2
                rw [hr]
                simp [refStep, hmem]
            · refine ⟨?_, ?_, h1⟩
              · show absState (ll_remove_ s e).2 = (refStep (absState s) (Op.remove e)).1
                rw [habs2]
                simp [refStep, hmem]
              · show Obs.oInt (ll_remove_ s e).1 = (refStep (absState s) (Op.remove e)).2
                rw [hr]
                simp [refStep, hmem]
        | contains e =>
            refine ⟨rfl, ?_, hwf⟩
            show Obs.oBool (ll_contains_ s e) = Obs.oBool ((absState s).contains e)
            rw [ll_contains_abs]
        | size =>
            refine ⟨rfl, ?_, hwf⟩
            show Obs.oNat (ll_size_ s) = Obs.oNat ((absState s).length)
            rw [ll_size_abs]
        | isEmpty =>
            exact absurd hg.1 (by rw [opOk]; simp)
        | iterate =>
            refine ⟨rfl, ?_, hwf⟩
            show Obs.oList (ll_iterate s) = Obs.oList (absState s)
            rw [ll_iterate_eq_absState]
      have ihr := ih (implStep s op).1 hwf2 hg.2
      refine ⟨?_, ?_, ihr.2.2⟩
      · show (implStep s op).2 :: (runImpl (implStep s op).1 rest).2
            = (refStep (absState s) op).2 :: (runRef (refStep (absState s) op).1 rest).2
        rw [hobs, ihr.1, habs]
      · show absState (runImpl (implStep s op).1 rest).1
            = (runRef (refStep (absState s) op).1 rest).1
        rw [ihr.2.1, habs]

/-- C2 (amended): for every sequence of the listed single-threaded
operations that contains no `is_empty` query and in which every
remove-by-identity targets an element whose first chain occurrence (if
any) is still live, the observable results and the final visible
contents coincide with a plain sequential list under the same
operations.  (`is_empty` reports physical emptiness and a remove of an
already-tombstoned element reports success while rewriting the
tombstone, so those two cases genuinely diverge — see the
counterexample.) -/
theorem seq_refinement_benign (ops : List Op) (hgood : goodOps ll_init_ ops = true) :
    (runImpl ll_init_ ops).2 = (runRef [] ops).2
    ∧ absState (runImpl ll_init_ ops).1 = (runRef [] ops).1 := by
  have h := runImpl_refines ops ll_init_ (by decide) hgood
  exact ⟨h.1, h.2.1⟩

/-- Witness for C2 (amended): the specification's own end-to-end
scenario — tail inserts of 1, 2, 3, a middle insert of 4 after 1, a
head pop, membership, size and a benign remove — is a benign run and
agrees with the reference observation for observation. -/
theorem seq_refinement_benign_witness :
    goodOps ll_init_
        [.insertTail 1, .insertTail 2, .insertTail 3, .insertAfter 1 4,
         .removeHead, .contains 2, .size, .remove 3, .removeHead] = true
    ∧ (runImpl ll_init_
        [.insertTail 1, .insertTail 2, .insertTail 3, .insertAfter 1 4,
         .removeHead, .contains 2, .size, .remove 3, .removeHead]).2
      = (runRef []
        [.insertTail 1, .insertTail 2, .insertTail 3, .insertAfter 1 4,
         .removeHead, .contains 2, .size, .remove 3, .removeHead]).2 :=
  ⟨by decide,
   (seq_refinement_benign
      [.insertTail 1, .insertTail 2, .insertTail 3, .insertAfter 1 4,
       .removeHead, .contains 2, .size, .remove 3, .removeHead] (by decide)).1⟩

/-! ### Commit of staged insert-after operations (single shared anchor) -/

theorem insertAfterChain_splice (C x : Nat) (nd : Node) :
    ∀ (l1 : List Node) (wx : Node) (l2 : List Node),
      wx.elm = x → visible wx C = true →
      (∀ u ∈ l1, ¬(u.elm = x ∧ visible u C = true)) →
      insertAfterChain C x nd (l1 ++ wx :: l2) = some (l1 ++ wx :: nd :: l2) := by
  intro l1
  induction l1 with
  | nil =>
      intro wx l2 hx hv _
      have hm : (wx.elm == x && visible wx C) = true := by simp [hx, hv]
      rw [List.nil_append, insertAfterChain, if_pos hm]
      rfl
  | cons u l1x ih =>
      intro wx l2 hx hv hall
      have hu : ¬(u.elm = x ∧ visible u C = true) := hall u (by simp)
      have hm : (u.elm == x && visible u C) = false := by
        cases he : (u.elm == x) with
        | false => simp
        | true =>
            have heq : u.elm = x := by simpa using he
            cases hvv : visible u C with
            | false => simp
            | true => exact absurd ⟨heq, hvv⟩ hu
      rw [List.cons_append, insertAfterChain, if_neg (by simp [hm]),
        ih wx l2 hx hv (fun v hv2 => hall v (List.mem_cons_of_mem _ hv2))]
      rfl

theorem liveElems_filter_keep (p : Node → Bool) :
    ∀ l : List Node, (∀ u ∈ l, u.removed_txn_id = 0 → p u = true) →
      liveElems (l.filter p) = liveElems l := by
  intro l
  induction l with
  | nil => intro _; rfl
  | cons u rest ih =>
      intro h
      have hrest : ∀ v ∈ rest, v.removed_txn_id = 0 → p v = true :=
        fun v hv => h v (List.mem_cons_of_mem _ hv)
      by_cases hl : u.removed_txn_id = 0
      · rw [List.filter_cons, if_pos (h u (by simp) hl), liveElems_cons_live _ _ hl,
          liveElems_cons_live _ _ hl, ih hrest]
      · by_cases hp : p u = true
        · rw [List.filter_cons, if_pos hp, liveElems_cons_dead _ _ hl,
            liveElems_cons_dead _ _ hl, ih hrest]
        · rw [List.filter_cons, if_neg hp, liveElems_cons_dead _ _ hl, ih hrest]

theorem liveElems_reclaim (m : Nat) (l : List Node) :
    liveElems (reclaimChain m l) = liveElems l := by
  refine liveElems_filter_keep _ l ?_
  intro u _ hl
  simp [hl]

theorem liveElems_all_live (l : List Node) (h : ∀ u ∈ l, u.removed_txn_id = 0) :
    liveElems l = l.map Node.elm := by
  rw [liveElems, List.filter_eq_self.mpr (fun u hu => by simp [h u hu])]

theorem ll_insert_after_eq (l : List Node) (C x e : Nat) (l2 : List Node)
    (h : insertAfterChain C x ⟨e, C, 0⟩ l = some l2) :
    ll_insert_after_ true ⟨l, C⟩ x e = ⟨l2, C + 1⟩ := by
  show (match insertAfterChain C x ⟨e, C, 0⟩ l with
        | some ch => (⟨ch, C + 1⟩ : LState)
        | none => ⟨l, C + 1⟩) = ⟨l2, C + 1⟩
  rw [h]

theorem commitAfters_cons (cap : Nat) (a e : Nat) (ps : List (Nat × Nat))
    (last : List (Nat × Nat)) (s : LState) :
    commitAfters cap ((a, e) :: ps) last s
      = commitAfters cap ps (set_last_for_anchor last cap a e)
          (ll_insert_after_ true s ((find_last_for_anchor last a).getD a) e) := rfl

/-- Loop invariant of commit's staged insert-after pass when every
staged pair shares one anchor `a`: the nodes inserted so far sit in
staging order directly behind the anchor node, and each new insert goes
behind the most recently inserted sibling. -/
theorem commitAfters_single_anchor (a : Nat) (pre post : List Node) (w0 : Node)
    (helm : w0.elm = a) (hlive : w0.removed_txn_id = 0) (cap : Nat) :
    ∀ (rest : List Nat) (mid : List Node) (C : Nat) (lastMap : List (Nat × Nat)),
      1 ≤ C →
      (∀ u ∈ pre ++ w0 :: (mid ++ post), wfNode C u = true) →
      (∀ u ∈ mid, u.removed_txn_id = 0) →
      (∀ u ∈ pre, u.removed_txn_id = 0 →
        u.elm ≠ a ∧ u.elm ∉ mid.map Node.elm ++ rest) →
      a ∉ mid.map Node.elm ++ rest →
      (mid.map Node.elm ++ rest).Nodup →
      ((mid = [] ∧ lastMap = []) ∨
        (∃ mid0 wl, mid = mid0 ++ [wl] ∧ lastMap = [(a, wl.elm)])) →
      (0 < cap ∨ rest = []) →
      ∃ (mid2 : List Node) (C2 : Nat),
        commitAfters cap (rest.map (fun e => (a, e))) lastMap ⟨pre ++ w0 :: (mid ++ post), C⟩
          = ⟨pre ++ w0 :: (mid2 ++ post), C2⟩
        ∧ mid2.map Node.elm = mid.map Node.elm ++ rest
        ∧ (∀ u ∈ mid2, u.removed_txn_id = 0)
        ∧ C ≤ C2
        ∧ (∀ u ∈ pre ++ w0 :: (mid2 ++ post), wfNode C2 u = true) := by
  intro rest
  induction rest with
  | nil =>
      intro mid C lastMap hC hwf hmidlive hpre hna hnodup hinv hcap
      exact ⟨mid, C, rfl, by simp, hmidlive, Nat.le_refl C, hwf⟩
  | cons e rest2 ih =>
      intro mid C lastMap hC hwf hmidlive hpre hna hnodup hinv hcap
      have hcap2 : 0 < cap := hcap.resolve_right (by simp)
      have hsets : (mid.map Node.elm ++ [e]) ++ rest2 = mid.map Node.elm ++ e :: rest2 := by
        simp
      -- facts shared by both invariant cases
      have hw0mem : w0 ∈ pre ++ w0 :: (mid ++ post) := by simp
      have hvw0 : visible w0 C = true := by
        rw [visible_of_wf C w0 (hwf w0 hw0mem)]
        simp [hlive]
      rcases hinv with ⟨hmid, hlm⟩ | ⟨mid0, wl, hmid, hlm⟩
      · -- first insert: effective anchor is `a` itself, splice right after w0
        subst hmid
        subst hlm
        have hsplice : insertAfterChain C a ⟨e, C, 0⟩ (pre ++ w0 :: post)
            = some (pre ++ w0 :: ⟨e, C, 0⟩ :: post) := by
          refine insertAfterChain_splice C a ⟨e, C, 0⟩ pre w0 post helm hvw0 ?_
          intro u hu hcon
          have hul : u.removed_txn_id = 0 := by
            have := hcon.2
            rw [visible_of_wf C u (hwf u (by simp [hu]))] at this
            simpa using this
          exact (hpre u hu hul).1 hcon.1
        have hins := ll_insert_after_eq (pre ++ w0 :: post) C a e
          (pre ++ w0 :: ⟨e, C, 0⟩ :: post) hsplice
        have hset : set_last_for_anchor [] cap a e = [(a, e)] := by
          rw [set_last_for_anchor]
          simp [hcap2]
        -- recurse with mid := [⟨e, C, 0⟩]
        have hwfx : ∀ u ∈ pre ++ w0 :: ([⟨e, C, 0⟩] ++ post), wfNode (C + 1) u = true := by
          intro u hu
          have hu2 : u ∈ pre ++ w0 :: ([] ++ post) ∨ u = ⟨e, C, 0⟩ := by
            simp only [List.mem_append, List.mem_cons, List.mem_singleton,
              List.nil_append] at hu ⊢
            tauto
          rcases hu2 with h | h
          · exact wfNode_mono C (C + 1) u (hwf u h) (Nat.le_succ C)
          · subst h
            simp only [wfNode, Bool.and_eq_true, decide_eq_true_eq]
            omega
        have hprex : ∀ u ∈ pre, u.removed_txn_id = 0 →
            u.elm ≠ a ∧ u.elm ∉ ([⟨e, C, 0⟩] : List Node).map Node.elm ++ rest2 := by
          intro u hu hul
          refine ⟨(hpre u hu hul).1, ?_⟩
          have := (hpre u hu hul).2
          simpa using this
        obtain ⟨mid2, C2, heq, helms, hlive2, hle, hwf2⟩ :=
          ih [⟨e, C, 0⟩] (C + 1) [(a, e)] (by omega) hwfx
            (by intro u hu; simp only [List.mem_singleton] at hu; subst hu; rfl)
            hprex
            (by simpa using hna)
            (by simpa using hnodup)
            (Or.inr ⟨[], ⟨e, C, 0⟩, rfl, rfl⟩)
            (Or.inl hcap2)
        refine ⟨mid2, C2, ?_, ?_, hlive2, Nat.le_trans (Nat.le_succ C) hle, hwf2⟩
        · rw [List.map_cons, commitAfters_cons, hset]
          show commitAfters cap (rest2.map (fun x => (a, x))) [(a, e)]
              (ll_insert_after_ true ⟨pre ++ w0 :: ([] ++ post), C⟩ a e)
            = ⟨pre ++ w0 :: (mid2 ++ post), C2⟩
          rw [List.nil_append, hins]
          exact heq
        · rw [helms]
          simp
      · -- subsequent insert: effective anchor is the last inserted sibling wl
        subst hmid
        subst hlm
        have heff : (find_last_for_anchor [(a, wl.elm)] a).getD a = wl.elm := by
          simp [find_last_for_anchor]
        have hwlmem : wl ∈ pre ++ w0 :: ((mid0 ++ [wl]) ++ post) := by simp
        have hwl_live : wl.removed_txn_id = 0 := hmidlive wl (by simp)
        have hvwl : visible wl C = true := by
          rw [visible_of_wf C wl (hwf wl hwlmem)]
          simp [hwl_live]
        have hwl_elm_mem : wl.elm ∈ (mid0 ++ [wl]).map Node.elm := by simp
        have hshape : pre ++ w0 :: ((mid0 ++ [wl]) ++ post)
            = (pre ++ w0 :: mid0) ++ (wl :: post) := by simp
        have hnodup0 : wl.elm ∉ mid0.map Node.elm := by
          have h1 : ((mid0 ++ [wl]).map Node.elm).Nodup :=
            (List.nodup_append.mp hnodup).1
          rw [List.map_append] at h1
          have h2 := (List.nodup_append.mp h1).2.2
          intro hmem
          exact h2 hmem (by simp)
        have hsplice : insertAfterChain C wl.elm ⟨e, C, 0⟩
            ((pre ++ w0 :: mid0) ++ (wl :: post))
            = some ((pre ++ w0 :: mid0) ++ (wl :: ⟨e, C, 0⟩ :: post)) := by
          refine insertAfterChain_splice C wl.elm ⟨e, C, 0⟩ (pre ++ w0 :: mid0) wl post
            rfl hvwl ?_
          intro u hu hcon
          rcases List.mem_append.mp hu with h1 | h1
          · -- u in pre: live (it is visible) and its element avoids mid elms
            have hul : u.removed_txn_id = 0 := by
              have := hcon.2
              rw [visible_of_wf C u (hwf u (by simp [h1]))] at this
              simpa using this
            have := (hpre u h1 hul).2
            rw [List.mem_append] at this
            exact this (Or.inl (by rw [← hcon.1] at hwl_elm_mem; exact hwl_elm_mem))
          · rcases List.mem_cons.mp h1 with h2 | h2
            · -- u = w0: its element a is not among the staged elements
              subst h2
              rw [helm] at hcon
              rw [List.mem_append] at hna
              exact hna (Or.inl (by rw [← hcon.1] at hwl_elm_mem; exact hwl_elm_mem))
            · -- u in mid0: nodup forbids a second wl.elm
              exact hnodup0 (by rw [← hcon.1]; exact List.mem_map_of_mem Node.elm h2)
        have hins := ll_insert_after_eq ((pre ++ w0 :: mid0) ++ (wl :: post)) C wl.elm e
          ((pre ++ w0 :: mid0) ++ (wl :: ⟨e, C, 0⟩ :: post)) hsplice
        have hset : set_last_for_anchor [(a, wl.elm)] cap a e = [(a, e)] := by
          rw [set_last_for_anchor]
          simp [replace_anchor]
        have hshape2 : (pre ++ w0 :: mid0) ++ (wl :: ⟨e, C, 0⟩ :: post)
            = pre ++ w0 :: (((mid0 ++ [wl]) ++ [⟨e, C, 0⟩]) ++ post) := by simp
        have hwfx : ∀ u ∈ pre ++ w0 :: (((mid0 ++ [wl]) ++ [⟨e, C, 0⟩]) ++ post),
            wfNode (C + 1) u = true := by
          intro u hu
          have hu2 : u ∈ pre ++ w0 :: ((mid0 ++ [wl]) ++ post) ∨ u = ⟨e, C, 0⟩ := by
            simp only [List.mem_append, List.mem_cons, List.mem_singleton] at hu ⊢
            tauto
          rcases hu2 with h | h
          · exact wfNode_mono C (C + 1) u (hwf u h) (Nat.le_succ C)
          · subst h
            simp only [wfNode, Bool.and_eq_true, decide_eq_true_eq]
            omega
        have hmidlivex : ∀ u ∈ (mid0 ++ [wl]) ++ [(⟨e, C, 0⟩ : Node)], u.removed_txn_id = 0 := by
          intro u hu
          rcases List.mem_append.mp hu with h1 | h1
          · exact hmidlive u h1
          · rw [List.mem_singleton.mp h1]
        have hsetsx : ((mid0 ++ [wl]) ++ [(⟨e, C, 0⟩ : Node)]).map Node.elm ++ rest2
            = (mid0 ++ [wl]).map Node.elm ++ e :: rest2 := by simp
        have hprex : ∀ u ∈ pre, u.removed_txn_id = 0 →
            u.elm ≠ a ∧
              u.elm ∉ ((mid0 ++ [wl]) ++ [(⟨e, C, 0⟩ : Node)]).map Node.elm ++ rest2 := by
          intro u hu hul
          refine ⟨(hpre u hu hul).1, ?_⟩
          rw [hsetsx]
          exact (hpre u hu hul).2
        obtain ⟨mid2, C2, heq, helms, hlive2, hle, hwf2⟩ :=
          ih ((mid0 ++ [wl]) ++ [(⟨e, C, 0⟩ : Node)]) (C + 1) [(a, e)] (by omega) hwfx
            hmidlivex hprex
            (by rw [hsetsx]; exact hna)
            (by rw [hsetsx]; exact hnodup)
            (Or.inr ⟨mid0 ++ [wl], (⟨e, C, 0⟩ : Node), rfl, rfl⟩)
            (Or.inl hcap2)
        refine ⟨mid2, C2, ?_, ?_, hlive2, Nat.le_trans (Nat.le_succ C) hle, hwf2⟩
        · rw [List.map_cons, commitAfters_cons, hset, heff]
          show commitAfters cap (rest2.map (fun x => (a, x))) [(a, e)]
              (ll_insert_after_ true ⟨pre ++ w0 :: ((mid0 ++ [wl]) ++ post), C⟩ wl.elm e)
            = ⟨pre ++ w0 :: (mid2 ++ post), C2⟩
          rw [hshape, hins, hshape2]
          exact heq
        · rw [helms, hsetsx]

/-- C6: committing a transaction whose staged operations are
insert-afters sharing one anchor places the inserts directly behind the
anchor in staging order, left to right: each subsequent insert goes
after the most recently inserted sibling.  Instantiated at chain
`[0]` with staged elements `[u, v]`, the committed list reads
`[0, u, v]`, not `[0, v, u]`. -/
theorem txn_commit_insert_after_staging_order
    (s : LState) (pre post : List Node) (w0 : Node) (a snap : Nat) (es : List Nat)
    (hwf : wfState s = true)
    (hchain : s.chain = pre ++ w0 :: post)
    (helm : w0.elm = a) (hlive : w0.removed_txn_id = 0)
    (hpre : ∀ w ∈ pre, w.removed_txn_id = 0 → w.elm ≠ a ∧ w.elm ∉ es)
    (hnd : es.Nodup) (hna : a ∉ es) :
    absState (ll_txn_commit s ⟨snap, [], [], es.map (fun e => (a, e)), []⟩)
      = liveElems pre ++ a :: es ++ liveElems post := by
  rcases (wfState_iff s).mp hwf with ⟨hC1, hall⟩
  have hwfc : ∀ u ∈ pre ++ w0 :: (([] : List Node) ++ post),
      wfNode (s.commitId + 1) u = true := by
    intro u hu
    refine wfNode_mono s.commitId (s.commitId + 1) u ?_ (Nat.le_succ _)
    refine hall u ?_
    rw [hchain]
    simpa using hu
  obtain ⟨mid2, C2, heq, helms, hlive2, hle, hwf2⟩ :=
    commitAfters_single_anchor a pre post w0 helm hlive
      (es.map (fun e => (a, e))).length es [] (s.commitId + 1) []
      (by omega) hwfc
      (by intro u hu; simp at hu)
      (by
        intro u hu hul
        simpa using hpre u hu hul)
      (by simpa using hna)
      (by simpa using hnd)
      (Or.inl ⟨rfl, rfl⟩)
      (by
        cases es with
        | nil => exact Or.inr rfl
        | cons x xs => exact Or.inl (by simp))
  have heq2 : commitAfters (es.map (fun e => (a, e))).length (es.map (fun e => (a, e))) []
      ⟨s.chain, s.commitId + 1⟩ = ⟨pre ++ w0 :: (mid2 ++ post), C2⟩ := by
    rw [hchain]
    exact heq
  have hcommit : ll_txn_commit s ⟨snap, [], [], es.map (fun e => (a, e)), []⟩
      = ⟨reclaimChain C2 (pre ++ w0 :: (mid2 ++ post)), C2⟩ := by
    show (⟨reclaimChain
        (commitAfters (es.map (fun e => (a, e))).length (es.map (fun e => (a, e))) []
          ⟨s.chain, s.commitId + 1⟩).commitId
        (commitAfters (es.map (fun e => (a, e))).length (es.map (fun e => (a, e))) []
          ⟨s.chain, s.commitId + 1⟩).chain,
        (commitAfters (es.map (fun e => (a, e))).length (es.map (fun e => (a, e))) []
          ⟨s.chain, s.commitId + 1⟩).commitId⟩ : LState)
      = ⟨reclaimChain C2 (pre ++ w0 :: (mid2 ++ post)), C2⟩
    rw [heq2]
  rw [hcommit]
  have hwfres : wfState ⟨reclaimChain C2 (pre ++ w0 :: (mid2 ++ post)), C2⟩ = true := by
    rw [wfState_iff]
    refine ⟨?_, ?_⟩
    · show 1 ≤ C2
      omega
    · intro u hu
      exact hwf2 u (List.mem_of_mem_filter hu)
  rw [absState_eq_live _ hwfres]
  show liveElems (reclaimChain C2 (pre ++ w0 :: (mid2 ++ post)))
      = liveElems pre ++ a :: es ++ liveElems post
  rw [liveElems_reclaim, liveElems_append, liveElems_cons_live _ _ hlive,
    liveElems_append, liveElems_all_live mid2 hlive2, helms, helm]
  simp

/-- Witness for C6: the specification's scenario 5 — from `[0]`, stage
`insert_after(0, 10)` then `insert_after(0, 20)` and commit — yields
`[0, 10, 20]`. -/
theorem txn_commit_insert_after_staging_order_witness :
    absState (ll_txn_commit ⟨[⟨0, 1, 0⟩], 2⟩ ⟨2, [], [], [(0, 10), (0, 20)], []⟩)
      = [0, 10, 20] := by
  have h := txn_commit_insert_after_staging_order ⟨[⟨0, 1, 0⟩], 2⟩ [] [] ⟨0, 1, 0⟩ 0 2
    [10, 20] (by decide) rfl rfl rfl (by simp) (by decide) (by decide)
  simpa using h

end ConcurrentList
